import Mathlib

set_option linter.unusedTactic false
set_option linter.unreachableTactic false

/-
  Verification development for the mbedtls multi-precision integer (MPI)
  core, as described by the repository header include/mbedtls/bignum.h and
  the accompanying specification. The implementation file bignum.c is not
  part of the repository snapshot, so each operation is modelled from the
  words of the specification and from the contracts documented in the
  header, at the level of the data model the specification fixes
  (sign / magnitude / limbs, invariants 1-5 of the data model section).
-/

namespace Mbedtls

/-- Error kinds of bignum.h (MBEDTLS_ERR_MPI_XXX), by meaning. -/
inductive Err where
  | fileIoError
  | badInput
  | invalidCharacter
  | bufferTooSmall
  | negativeValue
  | divisionByZero
  | notAcceptable
  | allocFailed
  deriving DecidableEq

/-- Return value of a fallible MPI routine: zero / success with a payload,
or a nonzero MBEDTLS_ERR_MPI_XXX code. -/
inductive MpiResult (α : Type) where
  | ok (x : α)
  | error (e : Err)
  deriving DecidableEq

/-- Modelled from the spec: the MPI value as the data model describes it,
a sign together with the magnitude determined by the limb array
(invariant 2: the numeric value is the base 2^W limb sum with the sign
applied). The limb layout itself only determines the magnitude, so the
signed arithmetic layer is modelled on the pair sign / magnitude. -/
structure Smpi where
  s : Int
  mag : Nat
  deriving DecidableEq

/-- Well-formedness from the data model: the sign is +1 or -1, and a zero
value carries sign +1 (invariant 4: no -0). -/
def Smpi.WF (X : Smpi) : Prop := (X.s = 1 ∨ X.s = -1) ∧ (X.mag = 0 → X.s = 1)

instance (X : Smpi) : Decidable X.WF := by
  unfold Smpi.WF
  infer_instance

/-- The integer denoted by an MPI. -/
def Smpi.val (X : Smpi) : Int := X.s * X.mag

/-- Modelled from the spec: sign negation with canonical zero. -/
def Smpi.neg (A : Smpi) : Smpi :=
  if A.mag = 0 then { s := 1, mag := 0 } else { s := -A.s, mag := A.mag }

/-- Modelled from the spec: mbedtls_mpi_add_mpi. If signs agree, magnitude
add, inherit the sign; else compare magnitudes, subtract the smaller from
the larger and take the sign of the larger, or +1 if equal (zero). -/
def add_mpi (A B : Smpi) : Smpi :=
  if A.s = B.s then { s := A.s, mag := A.mag + B.mag }
  else if A.mag = B.mag then { s := 1, mag := 0 }
  else if B.mag < A.mag then { s := A.s, mag := A.mag - B.mag }
  else { s := B.s, mag := B.mag - A.mag }

/-- Modelled from the spec: mbedtls_mpi_sub_mpi is defined as
add_mpi (A, -B). -/
def sub_mpi (A B : Smpi) : Smpi := add_mpi A (Smpi.neg B)

/-- Modelled from the spec: mbedtls_mpi_div_mpi. Fails with
division-by-zero when B = 0; otherwise the magnitudes are divided by
schoolbook long division (|A| = q |B| + r with r < |B|), the quotient
carries the sign of A times B and the remainder the sign of A, each
canonicalized to +1 on a zero value. -/
def div_mpi (A B : Smpi) : MpiResult (Smpi × Smpi) :=
  if B.mag = 0 then .error .divisionByZero
  else
    .ok ({ s := if A.mag / B.mag = 0 then 1 else A.s * B.s, mag := A.mag / B.mag },
         { s := if A.mag % B.mag = 0 then 1 else A.s, mag := A.mag % B.mag })

/-- Modelled from the spec and the header contract of mbedtls_mpi_mod_mpi:
fails with negative-value when B < 0; otherwise runs div_mpi (so B = 0
fails with division-by-zero) and corrects the remainder into [0, B) by
adding B when it is negative. -/
def mod_mpi (A B : Smpi) : MpiResult Smpi :=
  if B.val < 0 then .error .negativeValue
  else
    match div_mpi A B with
    | .error e => .error e
    | .ok (_, R) => .ok (if R.val < 0 then add_mpi R B else R)

theorem smpi_val_eq_zero {X : Smpi} (hX : X.WF) : X.val = 0 ↔ X.mag = 0 := by
  rcases hX.1 with h | h <;> simp [Smpi.val, h]

theorem add_mpi_val {A B : Smpi} (hA : A.WF) (hB : B.WF) :
    (add_mpi A B).val = A.val + B.val := by
  unfold add_mpi Smpi.val
  rcases hA.1 with ha | ha <;> rcases hB.1 with hb | hb <;>
    split_ifs with h1 h2 h3 <;> simp_all <;> push_cast <;> omega

theorem add_mpi_wf {A B : Smpi} (hA : A.WF) (hB : B.WF) : (add_mpi A B).WF := by
  unfold add_mpi
  split
  · exact ⟨hA.1, fun h => by
      have : A.mag = 0 := by simp at h; omega
      exact hA.2 this⟩
  · split
    · exact ⟨Or.inl rfl, fun _ => rfl⟩
    · split
      · exact ⟨hA.1, fun h => by simp at h; omega⟩
      · refine ⟨hB.1, fun h => by simp at h; omega⟩

theorem smpi_neg_val (A : Smpi) : (Smpi.neg A).val = -A.val := by
  unfold Smpi.neg Smpi.val
  split <;> simp_all <;> ring

theorem smpi_neg_wf {A : Smpi} (hA : A.WF) : (Smpi.neg A).WF := by
  unfold Smpi.neg
  split
  · exact ⟨Or.inl rfl, fun _ => rfl⟩
  · rename_i h
    rcases hA.1 with ha | ha <;>
      exact ⟨by simp [ha], fun hm => absurd hm h⟩

/-- C1: for well-formed MPIs A and B, if B is nonzero then div_mpi
succeeds with outputs Q and R satisfying A = Q * B + R, |R| < |B| and
the sign of R equal to the sign of A unless R is zero; and div_mpi
fails with the division-by-zero error exactly when B = 0. -/
theorem c1_div_mpi_contract (A B : Smpi) (hA : A.WF) (hB : B.WF) :
    (B.val ≠ 0 → ∃ Q R, div_mpi A B = .ok (Q, R) ∧
      A.val = Q.val * B.val + R.val ∧ |R.val| < |B.val| ∧
      (R.val = 0 ∨ R.val.sign = A.val.sign)) ∧
    (div_mpi A B = .error Err.divisionByZero ↔ B.val = 0) := by
  have hvz := smpi_val_eq_zero hB
  constructor
  · intro hBk
    have hm : B.mag ≠ 0 := fun h => hBk (hvz.2 h)
    have hbpos : 0 < B.mag := Nat.pos_of_ne_zero hm
    have hq : Smpi.val ⟨if A.mag / B.mag = 0 then 1 else A.s * B.s, A.mag / B.mag⟩ =
        A.s * B.s * (A.mag / B.mag : Nat) := by
      unfold Smpi.val
      split <;> simp_all
    have hr : Smpi.val ⟨if A.mag % B.mag = 0 then 1 else A.s, A.mag % B.mag⟩ =
        A.s * (A.mag % B.mag : Nat) := by
      unfold Smpi.val
      split <;> simp_all
    refine ⟨_, _, by unfold div_mpi; rw [if_neg hm], ?_, ?_, ?_⟩
    · have hdm : B.mag * (A.mag / B.mag) + A.mag % B.mag = A.mag :=
        Nat.div_add_mod A.mag B.mag
      rw [hq, hr]
      unfold Smpi.val
      rcases hA.1 with ha | ha <;> rcases hB.1 with hb | hb <;>
        rw [ha, hb] <;> push_cast <;> nlinarith [hdm]
    · have hlt : A.mag % B.mag < B.mag := Nat.mod_lt _ hbpos
      have h1 : |A.s * ((A.mag % B.mag : Nat) : Int)| = ((A.mag % B.mag : Nat) : Int) := by
        rcases hA.1 with ha | ha <;> rw [ha] <;> simp <;> omega
      have h2 : |B.val| = (B.mag : Int) := by
        unfold Smpi.val
        rcases hB.1 with hb | hb <;> rw [hb] <;> simp
      rw [hr, h1, h2]
      exact_mod_cast hlt
    · by_cases hr0 : A.mag % B.mag = 0
      · left
        simp [Smpi.val, hr0]
      · right
        have hapos : 0 < A.mag := by
          rcases Nat.eq_zero_or_pos A.mag with h | h
          · exact absurd (by rw [h]; exact Nat.zero_mod _) hr0
          · exact h
        have hrpos : 0 < A.mag % B.mag := Nat.pos_of_ne_zero hr0
        rw [hr]
        rcases hA.1 with ha | ha
        · have h1 : (0 : Int) < A.s * (A.mag % B.mag : Nat) := by
            rw [ha]; push_cast; omega
          have h2 : (0 : Int) < A.val := by
            unfold Smpi.val; rw [ha]; push_cast; omega
          rw [Int.sign_eq_one_of_pos h1, Int.sign_eq_one_of_pos h2]
        · have h1 : A.s * ((A.mag % B.mag : Nat) : Int) < 0 := by
            rw [ha]; push_cast; omega
          have h2 : A.val < 0 := by
            unfold Smpi.val; rw [ha]; push_cast; omega
          rw [Int.sign_eq_neg_one_of_neg h1, Int.sign_eq_neg_one_of_neg h2]
  · unfold div_mpi
    by_cases hm : B.mag = 0
    · simp [hm, hvz.2 hm]
    · rw [if_neg hm]
      simp [hvz, hm]

/-- Witness for C1 at A = 7, B = 2. -/
theorem c1_div_mpi_contract_witness :
    ∃ Q R, div_mpi ⟨1, 7⟩ ⟨1, 2⟩ = .ok (Q, R) ∧
      Smpi.val ⟨1, 7⟩ = Q.val * Smpi.val ⟨1, 2⟩ + R.val ∧
      |R.val| < |Smpi.val ⟨1, 2⟩| ∧
      (R.val = 0 ∨ R.val.sign = (Smpi.val ⟨1, 7⟩).sign) :=
  (c1_div_mpi_contract ⟨1, 7⟩ ⟨1, 2⟩ (by decide) (by decide)).1 (by decide)

/-- C4 counterexample: at B = 0 (so B ≤ 0) and A = 17, mod_mpi fails with
the division-by-zero error, not the negative-value error the claim
requires for every B ≤ 0. -/
theorem c4_mod_mpi_counterexample :
    Smpi.val ⟨1, 0⟩ ≤ 0 ∧
    mod_mpi ⟨1, 17⟩ ⟨1, 0⟩ = .error Err.divisionByZero ∧
    mod_mpi ⟨1, 17⟩ ⟨1, 0⟩ ≠ .error Err.negativeValue := by
  decide

/-- C4 amended: for well-formed MPIs A and B, mod_mpi fails with the
negative-value error whenever B < 0 and with the division-by-zero error
when B = 0; for every B > 0 it succeeds with a result R in [0, B);
in particular mod_mpi (-17, 5) = 3. -/
theorem c4_mod_mpi_amended (A B : Smpi) (hA : A.WF) (hB : B.WF) :
    (B.val < 0 → mod_mpi A B = .error Err.negativeValue) ∧
    (B.val = 0 → mod_mpi A B = .error Err.divisionByZero) ∧
    (0 < B.val → ∃ R, mod_mpi A B = .ok R ∧ 0 ≤ R.val ∧ R.val < B.val) ∧
    mod_mpi ⟨-1, 17⟩ ⟨1, 5⟩ = .ok ⟨1, 3⟩ := by
  refine ⟨?_, ?_, ?_, by decide⟩
  · intro h
    unfold mod_mpi
    rw [if_pos h]
  · intro h
    have hm : B.mag = 0 := (smpi_val_eq_zero hB).1 h
    unfold mod_mpi
    rw [if_neg (by omega), div_mpi, if_pos hm]
  · intro hpos
    have hm : B.mag ≠ 0 := fun h => by
      rw [(smpi_val_eq_zero hB).2 h] at hpos; exact absurd hpos (by omega)
    have hbpos : 0 < B.mag := Nat.pos_of_ne_zero hm
    have hbs : B.s = 1 := by
      rcases hB.1 with h | h
      · exact h
      · exfalso
        have : B.val = -(B.mag : Int) := by unfold Smpi.val; rw [h]; ring
        omega
    have hbval : B.val = (B.mag : Int) := by unfold Smpi.val; rw [hbs]; ring
    have hlt : A.mag % B.mag < B.mag := Nat.mod_lt _ hbpos
    have hR0wf : Smpi.WF ⟨if A.mag % B.mag = 0 then 1 else A.s, A.mag % B.mag⟩ := by
      constructor
      · by_cases h : A.mag % B.mag = 0
        · simp [h]
        · simp only [if_neg h]; exact hA.1
      · intro h
        simp only at h
        simp [h]
    have hR0val : Smpi.val ⟨if A.mag % B.mag = 0 then 1 else A.s, A.mag % B.mag⟩ =
        A.s * (A.mag % B.mag : Nat) := by
      unfold Smpi.val
      split <;> simp_all
    unfold mod_mpi
    rw [if_neg (by omega), div_mpi, if_neg hm]
    by_cases hneg : (⟨if A.mag % B.mag = 0 then 1 else A.s, A.mag % B.mag⟩ : Smpi).val < 0
    · have hval : (if (⟨if A.mag % B.mag = 0 then 1 else A.s, A.mag % B.mag⟩ : Smpi).val < 0
          then add_mpi ⟨if A.mag % B.mag = 0 then 1 else A.s, A.mag % B.mag⟩ B
          else ⟨if A.mag % B.mag = 0 then 1 else A.s, A.mag % B.mag⟩).val
          = A.s * ((A.mag % B.mag : Nat) : Int) + (B.mag : Int) := by
        rw [if_pos hneg, add_mpi_val hR0wf hB, hR0val, hbval]
      refine ⟨_, rfl, ?_, ?_⟩ <;> simp only [hval, hbval] <;>
        rw [hR0val] at hneg <;> rcases hA.1 with ha | ha <;>
        rw [ha] at hneg ⊢ <;> push_cast at hneg ⊢ <;> omega
    · have hval : (if (⟨if A.mag % B.mag = 0 then 1 else A.s, A.mag % B.mag⟩ : Smpi).val < 0
          then add_mpi ⟨if A.mag % B.mag = 0 then 1 else A.s, A.mag % B.mag⟩ B
          else ⟨if A.mag % B.mag = 0 then 1 else A.s, A.mag % B.mag⟩).val
          = A.s * ((A.mag % B.mag : Nat) : Int) := by
        rw [if_neg hneg, hR0val]
      refine ⟨_, rfl, ?_, ?_⟩ <;> simp only [hval, hbval] <;>
        rw [hR0val] at hneg <;> rcases hA.1 with ha | ha <;>
        rw [ha] at hneg ⊢ <;> push_cast at hneg ⊢ <;> omega

/-- Witness for C4 amended at A = -17, B = 5. -/
theorem c4_mod_mpi_amended_witness :
    ∃ R, mod_mpi ⟨-1, 17⟩ ⟨1, 5⟩ = .ok R ∧ 0 ≤ R.val ∧ R.val < Smpi.val ⟨1, 5⟩ :=
  (c4_mod_mpi_amended ⟨-1, 17⟩ ⟨1, 5⟩ (by decide) (by decide)).2.2.1 (by decide)

/-- C5: for well-formed MPIs A and B, sub_mpi computes the signed
difference A - B, is definitionally add_mpi (A, -B), and consequently
(A + B) - B = A. -/
theorem c5_sub_mpi_spec (A B : Smpi) (hA : A.WF) (hB : B.WF) :
    (sub_mpi A B).val = A.val - B.val ∧
    sub_mpi A B = add_mpi A (Smpi.neg B) ∧
    (sub_mpi (add_mpi A B) B).val = A.val := by
  have h1 : (sub_mpi A B).val = A.val - B.val := by
    unfold sub_mpi
    rw [add_mpi_val hA (smpi_neg_wf hB), smpi_neg_val]; ring
  refine ⟨h1, rfl, ?_⟩
  unfold sub_mpi
  rw [add_mpi_val (add_mpi_wf hA hB) (smpi_neg_wf hB), smpi_neg_val,
    add_mpi_val hA hB]
  ring

/-- Modelled from the spec: the square-and-multiply core of the modular
exponentiation (the sliding-window scan of the exponent specialised to
window width 1: square per exponent bit, multiply on a 1-bit), with every
step reduced modulo n. -/
def powm (a e n : Nat) : Nat :=
  if h : e = 0 then 1 % n
  else if e % 2 = 1 then powm a (e / 2) n * powm a (e / 2) n * a % n
  else powm a (e / 2) n * powm a (e / 2) n % n
termination_by e
decreasing_by
  all_goals exact Nat.div_lt_self (Nat.pos_of_ne_zero h) Nat.one_lt_two

theorem powm_eq (a n : Nat) (e : Nat) : powm a e n = a ^ e % n := by
  induction e using Nat.strong_induction_on with
  | _ e ih =>
    rw [powm]
    split
    · rename_i h
      subst h
      simp
    · rename_i h
      have hlt : e / 2 < e := Nat.div_lt_self (Nat.pos_of_ne_zero h) Nat.one_lt_two
      rw [ih _ hlt]
      split
      · rename_i hodd
        conv_rhs => rw [show e = e / 2 + e / 2 + 1 by omega]
        rw [pow_add, pow_add, pow_one]
        simp [Nat.mul_mod]
      · rename_i heven
        conv_rhs => rw [show e = e / 2 + e / 2 by omega]
        rw [pow_add]
        simp [Nat.mul_mod]

/-- Modelled from the spec: mbedtls_mpi_exp_mod at the value level.
Guards: E < 0 or N <= 0 is bad-input; an even modulus is rejected as
bad-input (the source accepts only odd N). Otherwise the base is first
reduced modulo N (mod_mpi semantics, a canonical residue in [0, N)) and
the Montgomery sliding-window loop computes its E-th power modulo N. -/
def exp_mod (A E N : Int) : MpiResult Int :=
  if E < 0 ∨ N ≤ 0 then .error .badInput
  else if N % 2 = 0 then .error .badInput
  else .ok ((powm (A % N).toNat E.toNat N.toNat : Nat))

theorem exp_mod_ok (A E N : Int) (hE : 0 ≤ E) (hN : 0 < N) (hodd : N % 2 = 1) :
    exp_mod A E N = .ok (A ^ E.toNat % N) := by
  unfold exp_mod
  rw [if_neg (by omega), if_neg (by omega)]
  have hA : ((A % N).toNat : Int) = A % N :=
    Int.toNat_of_nonneg (Int.emod_nonneg A (by omega))
  have hNn : (N.toNat : Int) = N := Int.toNat_of_nonneg (by omega)
  have hme : Int.ModEq N (A % N) A := Int.emod_emod_of_dvd A dvd_rfl
  have hpow : (A % N) ^ E.toNat % N = A ^ E.toNat % N := hme.pow E.toNat
  congr 1
  calc ((powm (A % N).toNat E.toNat N.toNat : Nat) : Int)
      = (((A % N).toNat ^ E.toNat % N.toNat : Nat) : Int) := by
        rw [powm_eq]
    _ = ((A % N) ^ E.toNat) % N := by push_cast [hA, hNn]; rfl
    _ = A ^ E.toNat % N := hpow

/-- C2: for every base A, exponents E1, E2 >= 0 and odd modulus N > 1,
exp_mod satisfies exp_mod A 0 N = 1 mod N, exp_mod A 1 N = A mod N, and
exp_mod A (E1 + E2) N = exp_mod A E1 N * exp_mod A E2 N mod N. -/
theorem c2_exp_mod_algebra (A E1 E2 N : Int) (hN : 1 < N) (hodd : N % 2 = 1)
    (h1 : 0 ≤ E1) (h2 : 0 ≤ E2) :
    exp_mod A 0 N = .ok (1 % N) ∧
    exp_mod A 1 N = .ok (A % N) ∧
    ∃ X1 X2 X3, exp_mod A E1 N = .ok X1 ∧ exp_mod A E2 N = .ok X2 ∧
      exp_mod A (E1 + E2) N = .ok X3 ∧ X3 = (X1 * X2) % N := by
  have hN0 : (0 : Int) < N := by omega
  refine ⟨?_, ?_, ?_⟩
  · rw [exp_mod_ok A 0 N le_rfl hN0 hodd]
    norm_num
  · rw [exp_mod_ok A 1 N (by omega) hN0 hodd]
    norm_num
  · refine ⟨_, _, _, exp_mod_ok A E1 N h1 hN0 hodd, exp_mod_ok A E2 N h2 hN0 hodd,
      exp_mod_ok A (E1 + E2) N (by omega) hN0 hodd, ?_⟩
    rw [show (E1 + E2).toNat = E1.toNat + E2.toNat by omega, pow_add, Int.mul_emod]

/-- Witness for C2 at A = 4, E1 = 6, E2 = 7, N = 497. -/
theorem c2_exp_mod_algebra_witness :
    exp_mod 4 0 497 = .ok (1 % 497) ∧
    exp_mod 4 1 497 = .ok (4 % 497) ∧
    ∃ X1 X2 X3, exp_mod 4 6 497 = .ok X1 ∧ exp_mod 4 7 497 = .ok X2 ∧
      exp_mod 4 (6 + 7) 497 = .ok X3 ∧ X3 = (X1 * X2) % 497 :=
  c2_exp_mod_algebra 4 6 7 497 (by norm_num) (by norm_num) (by norm_num) (by norm_num)

/-- C6: exp_mod fails with the bad-input error whenever the exponent is
negative or the modulus is non-positive, for every base. -/
theorem c6_exp_mod_bad_input (A E N : Int) (h : E < 0 ∨ N ≤ 0) :
    exp_mod A E N = .error Err.badInput := by
  unfold exp_mod
  rw [if_pos h]

/-- Witness for C6 at A = 2, E = -1, N = 5. -/
theorem c6_exp_mod_bad_input_witness :
    exp_mod 2 (-1) 5 = .error Err.badInput :=
  c6_exp_mod_bad_input 2 (-1) 5 (Or.inl (by norm_num))

/-- Modelled from the spec: mbedtls_mpi_inv_mod at the value level.
Fails with bad-input when N <= 1 and with not-acceptable when
gcd(A, N) is not 1; otherwise the extended Euclidean pass yields the
Bezout coefficient of A, reduced to the canonical residue in [0, N). -/
def inv_mod (A N : Int) : MpiResult Int :=
  if N ≤ 1 then .error .badInput
  else if Int.gcd A N ≠ 1 then .error .notAcceptable
  else .ok (Int.gcdA A N % N)

/-- C3: inv_mod fails with bad-input if N <= 1, fails with not-acceptable
if gcd(A, N) is not 1, and otherwise succeeds with X in [0, N) such that
(A * X) mod N = 1. -/
theorem c3_inv_mod_contract (A N : Int) :
    (N ≤ 1 → inv_mod A N = .error Err.badInput) ∧
    (1 < N → Int.gcd A N ≠ 1 → inv_mod A N = .error Err.notAcceptable) ∧
    (1 < N → Int.gcd A N = 1 → ∃ X, inv_mod A N = .ok X ∧
      0 ≤ X ∧ X < N ∧ (A * X) % N = 1) := by
  refine ⟨?_, ?_, ?_⟩
  · intro h
    unfold inv_mod
    rw [if_pos h]
  · intro h1 hg
    unfold inv_mod
    rw [if_neg (by omega), if_pos hg]
  · intro h1 hg
    unfold inv_mod
    rw [if_neg (by omega), if_neg (by simp [hg])]
    have hN0 : N ≠ 0 := by omega
    refine ⟨_, rfl, Int.emod_nonneg _ hN0, Int.emod_lt_of_pos _ (by omega), ?_⟩
    have hb := Int.gcd_eq_gcd_ab A N
    rw [hg] at hb
    have hb2 : A * Int.gcdA A N = 1 - N * Int.gcdB A N := by
      push_cast at hb
      linarith
    rw [Int.mul_emod, Int.emod_emod_of_dvd _ dvd_rfl, ← Int.mul_emod, hb2,
      Int.sub_eq_add_neg, ← Int.neg_mul, Int.neg_mul_comm,
      Int.add_mul_emod_self_left]
    exact Int.emod_eq_of_lt (by norm_num) (by omega)

/-- Witness for C3 at A = 3, N = 11, where the inverse is 4. -/
theorem c3_inv_mod_contract_witness :
    ∃ X, inv_mod 3 11 = .ok X ∧ 0 ≤ X ∧ X < 11 ∧ (3 * X) % 11 = 1 :=
  (c3_inv_mod_contract 3 11).2.2 (by norm_num) (by decide)

/-- Witness for C5 at A = 3, B = -5. -/
theorem c5_sub_mpi_spec_witness :
    (sub_mpi ⟨1, 3⟩ ⟨-1, 5⟩).val = Smpi.val ⟨1, 3⟩ - Smpi.val ⟨-1, 5⟩ ∧
    sub_mpi ⟨1, 3⟩ ⟨-1, 5⟩ = add_mpi ⟨1, 3⟩ (Smpi.neg ⟨-1, 5⟩) ∧
    (sub_mpi (add_mpi ⟨1, 3⟩ ⟨-1, 5⟩) ⟨-1, 5⟩).val = Smpi.val ⟨1, 3⟩ :=
  c5_sub_mpi_spec ⟨1, 3⟩ ⟨-1, 5⟩ (by decide) (by decide)

/-- Modelled from the spec: mbedtls_mpi_lsb on the magnitude, the
zero-based index of the least significant set bit, scanning from bit zero
upward; defined to return 0 when the value is 0. -/
def lsb (n : Nat) : Nat :=
  if h : n = 0 then 0
  else if n % 2 = 1 then 0
  else lsb (n / 2) + 1
termination_by n
decreasing_by
  exact Nat.div_lt_self (Nat.pos_of_ne_zero h) Nat.one_lt_two

/-- mbedtls_mpi_lsb of an MPI: the sign is ignored, only the magnitude
determined by the limbs is scanned. -/
def mpi_lsb (X : Smpi) : Nat := lsb X.mag

theorem div_pow_succ (m k : Nat) : m / 2 ^ (k + 1) = m / 2 / 2 ^ k := by
  rw [Nat.div_div_eq_div_mul]
  congr 1
  rw [pow_succ, Nat.mul_comm]

theorem lsb_spec : ∀ n : Nat, n ≠ 0 →
    n / 2 ^ lsb n % 2 = 1 ∧ ∀ i, i < lsb n → n / 2 ^ i % 2 = 0 := by
  intro n
  induction n using Nat.strong_induction_on with
  | _ n ih =>
    intro hn
    rw [lsb, dif_neg hn]
    by_cases hodd : n % 2 = 1
    · rw [if_pos hodd]
      constructor
      · simpa using hodd
      · intro i hi
        omega
    · rw [if_neg hodd]
      have hn2 : n / 2 ≠ 0 := by omega
      have hlt : n / 2 < n := Nat.div_lt_self (Nat.pos_of_ne_zero hn) Nat.one_lt_two
      obtain ⟨h1, h2⟩ := ih (n / 2) hlt hn2
      constructor
      · rw [div_pow_succ]
        exact h1
      · intro i hi
        cases i with
        | zero => simpa using (by omega : n % 2 = 0)
        | succ j =>
          rw [div_pow_succ]
          exact h2 j (by omega)

/-- C9: mpi_lsb returns the zero-based index of the least significant set
bit of the magnitude (the bit there is 1 and every lower bit is 0), and
returns 0 when the value is 0, so that lsb of 0 and lsb of 1 coincide. -/
theorem c9_lsb_spec (X : Smpi) :
    (X.mag ≠ 0 → X.mag / 2 ^ mpi_lsb X % 2 = 1 ∧
      ∀ i, i < mpi_lsb X → X.mag / 2 ^ i % 2 = 0) ∧
    (X.mag = 0 → mpi_lsb X = 0) ∧
    mpi_lsb ⟨1, 0⟩ = 0 ∧ mpi_lsb ⟨1, 1⟩ = 0 := by
  refine ⟨fun h => lsb_spec X.mag h, fun h => ?_, ?_, ?_⟩
  · unfold mpi_lsb
    rw [h, lsb]
    simp
  · unfold mpi_lsb
    rw [lsb]
    simp
  · unfold mpi_lsb
    rw [lsb]
    simp

/-- Witness for C9 at X = 12, whose least significant set bit has index 2. -/
theorem c9_lsb_spec_witness :
    Smpi.mag ⟨1, 12⟩ / 2 ^ mpi_lsb ⟨1, 12⟩ % 2 = 1 :=
  ((c9_lsb_spec ⟨1, 12⟩).1 (by norm_num)).1

/-- Value of a big-endian byte string. -/
def bytesVal (l : List Nat) : Nat := l.foldl (fun acc b => acc * 256 + b) 0

/-- Modelled from the spec: mbedtls_mpi_read_binary imports unsigned
big-endian data, grows the destination as needed and sets sign +1. -/
def read_binary (buf : List Nat) : Smpi := ⟨1, bytesVal buf⟩

/-- The big-endian byte string of n, written into exactly len bytes
(the whole buffer is always filled). -/
def writeBytes (n : Nat) : Nat → List Nat
  | 0 => []
  | k + 1 => writeBytes (n / 256) k ++ [n % 256]

/-- Modelled from the spec: bitlen, the one-based index of the most
significant set bit, 0 for the value 0. -/
def bitlen (n : Nat) : Nat := if n = 0 then 0 else Nat.log2 n + 1

/-- Modelled from the spec: size(X) = ceil(bitlen(X) / 8) bytes. -/
def mpi_size (X : Smpi) : Nat := (bitlen X.mag + 7) / 8

/-- Modelled from the spec: mbedtls_mpi_write_binary exports the magnitude
as unsigned big-endian data, fails with buffer-too-small when
buflen < size(X), and otherwise fills the whole buffer, left-padding
with zeros. -/
def write_binary (X : Smpi) (buflen : Nat) : MpiResult (List Nat) :=
  if buflen < mpi_size X then .error .bufferTooSmall
  else .ok (writeBytes X.mag buflen)

theorem bytesVal_append_one (l : List Nat) (b : Nat) :
    bytesVal (l ++ [b]) = bytesVal l * 256 + b := by
  simp [bytesVal, List.foldl_append]

theorem mod_mul_256 (n m : Nat) (hm : 0 < m) :
    n % (256 * m) = 256 * (n / 256 % m) + n % 256 := by
  have h1 : n / 256 % m < m := Nat.mod_lt _ hm
  have h2 : n % 256 < 256 := Nat.mod_lt _ (by norm_num)
  have h3 : 256 * (n / 256 % m) + n % 256 < 256 * m := by omega
  conv_lhs => rw [← Nat.div_add_mod n 256, ← Nat.div_add_mod (n / 256) m]
  rw [Nat.mul_add, ← Nat.mul_assoc, Nat.add_assoc, Nat.mul_add_mod,
    Nat.mod_eq_of_lt h3]

theorem bytesVal_writeBytes (k : Nat) : ∀ n : Nat,
    bytesVal (writeBytes n k) = n % 256 ^ k := by
  induction k with
  | zero =>
    intro n
    simp [writeBytes, bytesVal, Nat.mod_one]
  | succ k ih =>
    intro n
    rw [writeBytes, bytesVal_append_one, ih]
    have : (256 : Nat) ^ (k + 1) = 256 * 256 ^ k := by
      rw [pow_succ, Nat.mul_comm]
    rw [this, mod_mul_256 n _ (Nat.pos_pow_of_pos k (by norm_num))]
    ring

theorem writeBytes_cons_zero (k : Nat) : ∀ n : Nat, n < 256 ^ k →
    writeBytes n (k + 1) = 0 :: writeBytes n k := by
  induction k with
  | zero =>
    intro n h
    have hn : n = 0 := by simpa using h
    subst hn
    rfl
  | succ k ih =>
    intro n h
    have hdiv : n / 256 < 256 ^ k := by
      rw [Nat.div_lt_iff_lt_mul (by norm_num : (0 : Nat) < 256)]
      calc n < 256 ^ (k + 1) := h
        _ = 256 ^ k * 256 := by rw [pow_succ]
    show writeBytes (n / 256) (k + 1) ++ [n % 256] = 0 :: writeBytes n (k + 1)
    rw [ih (n / 256) hdiv]
    rfl

theorem writeBytes_pad (k : Nat) (n : Nat) (h : n < 256 ^ k) : ∀ j : Nat,
    writeBytes n (j + k) = List.replicate j 0 ++ writeBytes n k := by
  intro j
  induction j with
  | zero => simp
  | succ j ih =>
    have hk : n < 256 ^ (j + k) :=
      lt_of_lt_of_le h (Nat.pow_le_pow_right (by norm_num) (by omega))
    rw [show j + 1 + k = j + k + 1 by omega, writeBytes_cons_zero (j + k) n hk, ih]
    simp [List.replicate_succ]

theorem lt_of_size_le (n L : Nat) (h : (bitlen n + 7) / 8 ≤ L) : n < 256 ^ L := by
  have hb : bitlen n ≤ 8 * L := by omega
  have h256 : (256 : Nat) ^ L = 2 ^ (8 * L) := by
    rw [show (256 : Nat) = 2 ^ 8 by norm_num, ← pow_mul]
  by_cases hn : n = 0
  · subst hn
    exact Nat.pos_pow_of_pos L (by norm_num)
  · unfold bitlen at hb
    rw [if_neg hn] at hb
    rw [h256]
    exact (Nat.log2_lt hn).1 (by omega)

/-- C7: writing X with write_binary into a buffer of size at least
size(X) and reading it back with read_binary yields the magnitude of X
with sign +1; write_binary fails with buffer-too-small exactly when
buflen < size(X), and otherwise the leading buflen - size(X) bytes are
zero padding. -/
theorem c7_binary_roundtrip (X : Smpi) (buflen : Nat) :
    (mpi_size X ≤ buflen → ∃ buf, write_binary X buflen = .ok buf ∧
      read_binary buf = ⟨1, X.mag⟩ ∧
      buf.take (buflen - mpi_size X) = List.replicate (buflen - mpi_size X) 0) ∧
    (write_binary X buflen = .error Err.bufferTooSmall ↔ buflen < mpi_size X) := by
  constructor
  · intro h
    have hsz : X.mag < 256 ^ mpi_size X := lt_of_size_le X.mag (mpi_size X) le_rfl
    have hbig : X.mag < 256 ^ buflen := lt_of_size_le X.mag buflen (le_trans h le_rfl)
    unfold write_binary
    rw [if_neg (by omega)]
    refine ⟨_, rfl, ?_, ?_⟩
    · unfold read_binary
      congr 1
      rw [bytesVal_writeBytes]
      exact Nat.mod_eq_of_lt hbig
    · have hsplit : writeBytes X.mag buflen =
          List.replicate (buflen - mpi_size X) 0 ++ writeBytes X.mag (mpi_size X) := by
        conv_lhs => rw [show buflen = (buflen - mpi_size X) + mpi_size X by omega]
        exact writeBytes_pad (mpi_size X) X.mag hsz (buflen - mpi_size X)
      rw [hsplit]
      have htake := List.take_left (List.replicate (buflen - mpi_size X) 0)
        (writeBytes X.mag (mpi_size X))
      rw [List.length_replicate] at htake
      exact htake
  · unfold write_binary
    by_cases h : buflen < mpi_size X
    · simp [h]
    · simp [h]

/-- Witness for C7 at X = 258 and buflen = 3 (size(X) = 2). -/
theorem c7_binary_roundtrip_witness :
    ∃ buf, write_binary ⟨1, 258⟩ 3 = .ok buf ∧
      read_binary buf = ⟨1, Smpi.mag ⟨1, 258⟩⟩ ∧
      buf.take (3 - mpi_size ⟨1, 258⟩) =
        List.replicate (3 - mpi_size ⟨1, 258⟩) 0 :=
  (c7_binary_roundtrip ⟨1, 258⟩ 3).1 (by
    show (bitlen 258 + 7) / 8 ≤ 3
    norm_num [bitlen, Nat.log2])

/-- Limb width W in bits (64-bit configuration). -/
def biL : Nat := 64

/-- Modelled from the spec: the MPI structure of bignum.h at the limb
level, a sign and the little-endian array of allocated limbs (the value
of limb i weighs 2 to the i * W). -/
structure Lmpi where
  s : Int
  limbs : List Nat
  deriving DecidableEq

/-- Significant limb count: the index of the highest non-zero limb plus
one, that is, the length of the limb array with high zero limbs removed. -/
def sig (l : List Nat) : Nat := (l.reverse.dropWhile (fun x => x == 0)).length

/-- Modelled from the spec: mbedtls_mpi_copy grows the destination to the
significant-limb count of the source, copies those limbs, zero-fills the
remaining high limbs of the destination, and adopts the sign of the
source canonicalized to +1 when the value is zero. -/
def copy (X Y : Lmpi) : Lmpi :=
  ⟨if sig Y.limbs = 0 then 1 else Y.s,
   Y.limbs.take (sig Y.limbs) ++
     List.replicate (max X.limbs.length (sig Y.limbs) - sig Y.limbs) 0⟩

/-- Modelled from the spec: the constant-time normalization of the flag,
any nonzero value becomes 1. -/
def ctFlag (flag : Nat) : Nat := if flag = 0 then 0 else 1

/-- Modelled from the spec: branch-free bitmask selection of one limb,
(1 - b) * x + b * y for a normalized flag b. -/
def ctSelect (b x y : Nat) : Nat := (1 - b) * x + b * y

/-- Branch-free selection for the sign field. -/
def ctSelectInt (b : Nat) (x y : Int) : Int := (1 - (b : Int)) * x + (b : Int) * y

/-- Modelled from the spec: mbedtls_mpi_safe_cond_assign with pre-grown
operands, bitmask selection per limb and per metadata field, no branch
on the flag. -/
def safe_cond_assign (X Y : Lmpi) (flag : Nat) : Lmpi :=
  ⟨ctSelectInt (ctFlag flag) X.s Y.s,
   List.zipWith (ctSelect (ctFlag flag)) X.limbs Y.limbs⟩

/-- Modelled from the spec: mbedtls_mpi_get_bit, zero-based bit access;
a position at or beyond the allocated limbs reads as 0, otherwise the
bit is extracted from limb pos / W at offset pos mod W. -/
def get_bit (X : Lmpi) (pos : Nat) : Nat :=
  if X.limbs.length * biL ≤ pos then 0
  else (X.limbs.getD (pos / biL) 0 >>> (pos % biL)) % 2

theorem zipWith_sel_left : ∀ (l1 l2 : List Nat), l1.length = l2.length →
    List.zipWith (ctSelect 0) l1 l2 = l1 := by
  intro l1
  induction l1 with
  | nil => intro l2 h; simp
  | cons a t ih =>
    intro l2 h
    cases l2 with
    | nil => simp at h
    | cons b t2 =>
      simp only [List.zipWith_cons_cons]
      rw [ih t2 (by simpa using h)]
      simp [ctSelect]

theorem zipWith_sel_right : ∀ (l1 l2 : List Nat), l1.length = l2.length →
    List.zipWith (ctSelect 1) l1 l2 = l2 := by
  intro l1
  induction l1 with
  | nil =>
    intro l2 h
    cases l2 with
    | nil => rfl
    | cons b t2 => simp at h
  | cons a t ih =>
    intro l2 h
    cases l2 with
    | nil => simp at h
    | cons b t2 =>
      simp only [List.zipWith_cons_cons]
      rw [ih t2 (by simpa using h)]
      simp [ctSelect]

theorem sig_le_length (l : List Nat) : sig l ≤ l.length := by
  unfold sig
  calc (l.reverse.dropWhile (fun x => x == 0)).length ≤ l.reverse.length :=
        (List.dropWhile_sublist _).length_le
    _ = l.length := List.length_reverse l

theorem take_sig_append (l : List Nat) :
    l.take (sig l) ++ List.replicate (l.length - sig l) 0 = l := by
  have hsplit := List.takeWhile_append_dropWhile (fun x => x == 0) l.reverse
  have htw : l.reverse.takeWhile (fun x => x == 0) =
      List.replicate (l.reverse.takeWhile (fun x => x == 0)).length 0 := by
    apply List.eq_replicate_of_mem
    intro b hb
    have := List.mem_takeWhile_imp hb
    simpa using this
  obtain ⟨D, hD⟩ : ∃ D, (l.reverse.dropWhile (fun x => x == 0)).reverse = D :=
    ⟨_, rfl⟩
  obtain ⟨m, hm⟩ : ∃ m, (l.reverse.takeWhile (fun x => x == 0)).length = m :=
    ⟨_, rfl⟩
  have hl : l = D ++ List.replicate m 0 := by
    conv_lhs => rw [← List.reverse_reverse l, ← hsplit]
    rw [List.reverse_append]
    congr 1
    rw [htw, List.reverse_replicate, hm]
  have hsig : sig l = D.length := by
    rw [← hD, List.length_reverse]
    rfl
  rw [hsig, hl, List.take_left, List.length_append, List.length_replicate,
    show D.length + m - D.length = m by omega]

/-- C8: with pre-grown operands (equal limb counts) and a well-formed
source sign, safe_cond_assign with flag 0 leaves X unchanged and with
flag 1 produces exactly copy(X, Y). -/
theorem c8_safe_cond_assign_spec (X Y : Lmpi)
    (hlen : X.limbs.length = Y.limbs.length)
    (hz : sig Y.limbs = 0 → Y.s = 1) :
    safe_cond_assign X Y 0 = X ∧ safe_cond_assign X Y 1 = copy X Y := by
  constructor
  · have hs : ctSelectInt (ctFlag 0) X.s Y.s = X.s := by
      simp [ctSelectInt, ctFlag]
    have hlimbs : List.zipWith (ctSelect (ctFlag 0)) X.limbs Y.limbs = X.limbs :=
      zipWith_sel_left X.limbs Y.limbs hlen
    unfold safe_cond_assign
    rw [hs, hlimbs]
  · have hs : ctSelectInt (ctFlag 1) X.s Y.s = Y.s := by
      simp [ctSelectInt, ctFlag]
    have hlimbs : List.zipWith (ctSelect (ctFlag 1)) X.limbs Y.limbs = Y.limbs :=
      zipWith_sel_right X.limbs Y.limbs hlen
    unfold safe_cond_assign copy
    rw [hs, hlimbs]
    have hmax : max X.limbs.length (sig Y.limbs) = Y.limbs.length := by
      have := sig_le_length Y.limbs
      omega
    rw [hmax]
    congr 1
    · by_cases h : sig Y.limbs = 0
      · rw [if_pos h, hz h]
      · rw [if_neg h]
    · exact (take_sig_append Y.limbs).symm

/-- Witness for C8 at X = (+1, [5, 0]) and Y = (-1, [3, 0]). -/
theorem c8_safe_cond_assign_spec_witness :
    safe_cond_assign ⟨1, [5, 0]⟩ ⟨-1, [3, 0]⟩ 0 = ⟨1, [5, 0]⟩ ∧
    safe_cond_assign ⟨1, [5, 0]⟩ ⟨-1, [3, 0]⟩ 1 = copy ⟨1, [5, 0]⟩ ⟨-1, [3, 0]⟩ :=
  c8_safe_cond_assign_spec ⟨1, [5, 0]⟩ ⟨-1, [3, 0]⟩ (by decide) (by decide)

/-- C10: get_bit is total over every MPI and bit position: its result is
always 0 or 1 (never an error code), and a position at or beyond the
allocated limbs reads as 0. -/
theorem c10_get_bit_total (X : Lmpi) (pos : Nat) :
    (get_bit X pos = 0 ∨ get_bit X pos = 1) ∧
    (X.limbs.length * biL ≤ pos → get_bit X pos = 0) := by
  constructor
  · unfold get_bit
    split
    · exact Or.inl rfl
    · exact Nat.mod_two_eq_zero_or_one _
  · intro h
    unfold get_bit
    rw [if_pos h]

/-- Witness for C10 at X with single limb 6 and position 65, beyond the
allocated limbs. -/
theorem c10_get_bit_total_witness :
    (get_bit ⟨1, [6]⟩ 65 = 0 ∨ get_bit ⟨1, [6]⟩ 65 = 1) ∧
    ((Lmpi.limbs ⟨1, [6]⟩).length * biL ≤ 65 → get_bit ⟨1, [6]⟩ 65 = 0) :=
  c10_get_bit_total ⟨1, [6]⟩ 65

end Mbedtls
